import Mathlib

/-!
Verification of the conversation-search engine: a shallow embedding of the
query compiler (`src/search_secure.py`), the search wrapper, the storage
engine's ingestion path (`src/database_enhanced.py`) and the streaming
archive parser (`src/streaming_parser.py`), together with theorems settling
the specification claims about them.

Python strings are modelled as `List Char`; Python `datetime` values as
`Nat` epoch seconds; raised exceptions as `Except` errors.  SHA-256 digests
are modelled as an opaque environment-supplied function (for audit records)
or as the identity on the hashed byte stream (for ingestion checksums):
only equality and determinism of digests matter to the claims.
-/

/-! ## Basic Python string helpers -/

/-- Python `a in b` substring test: does `needle` begin here? -/
def leadsWith : List Char → List Char → Bool
  | [], _ => true
  | _ :: _, [] => false
  | a :: as, b :: bs => a == b && leadsWith as bs

/-- Python `needle in hay` substring containment. -/
def occursIn (needle : List Char) : List Char → Bool
  | [] => needle == []
  | c :: rest => leadsWith needle (c :: rest) || occursIn needle rest

/-- Python `str.upper()` (ASCII fragment). -/
def upperL (l : List Char) : List Char := l.map Char.toUpper

/-- Python `str.strip()`: drop whitespace from both ends (ASCII fragment). -/
def stripChars (l : List Char) : List Char :=
  ((l.dropWhile Char.isWhitespace).reverse.dropWhile Char.isWhitespace).reverse

/-- Helper for `pyWords`: accumulate the current word (reversed). -/
def pyWordsAux : List Char → List Char → List (List Char)
  | cur, [] => if cur == [] then [] else [cur.reverse]
  | cur, c :: rest =>
    if c.isWhitespace then
      if cur == [] then pyWordsAux [] rest else cur.reverse :: pyWordsAux [] rest
    else pyWordsAux (c :: cur) rest

/-- Python `str.split()` with no separator: whitespace-run splitting, no
empty words. -/
def pyWords (l : List Char) : List (List Char) := pyWordsAux [] l

/-- Python `str.split(sep)` for a single-character separator: keeps empty
fragments, one split per occurrence. -/
def pySplitOn (sep : Char) : List Char → List (List Char)
  | [] => [[]]
  | c :: cs =>
    if c == sep then [] :: pySplitOn sep cs
    else
      match pySplitOn sep cs with
      | [] => [[c]]
      | p :: ps => (c :: p) :: ps

/-- Concatenation of a list of character lists (no separator). -/
def concatL : List (List Char) → List Char
  | [] => []
  | p :: ps => p ++ concatL ps

/-- Python `sep.join(parts)` for a single-character separator. -/
def joinWith (sep : Char) : List (List Char) → List Char
  | [] => []
  | [p] => p
  | p :: q :: ps => p ++ sep :: joinWith sep (q :: ps)

/-- Map-and-concatenate. -/
def concatMap (f : α → List β) : List α → List β
  | [] => []
  | a :: as => f a ++ concatMap f as

/-! ## Query compiler (`SecureSearchEngine` of `search_secure.py`) -/

/-- Embeds `SearchConstants.FTS5_SPECIAL_CHARS`. -/
def fts5SpecialChars : List Char := ['"', '\'', '(', ')', '*', ':', '^']

/-- Embeds `SearchConstants.BOOLEAN_OPERATORS`. -/
def booleanOperators : List (List Char) :=
  [['A', 'N', 'D'], ['O', 'R'], ['N', 'O', 'T'], ['N', 'E', 'A', 'R']]

def maxQueryLength : Nat := 500

def minQueryLength : Nat := 1

def maxResultsPerPage : Int := 100

/-- Reserved metacharacters other than the double quote: the characters the
escape loop actually prefixes. -/
def isSpecialNQ (c : Char) : Bool :=
  c == '\'' || c == '(' || c == ')' || c == '*' || c == ':' || c == '^'

/-- Python `text.replace(ch, '\\' + ch)` for a single character `ch`. -/
def escapeChar (ch : Char) : List Char → List Char
  | [] => []
  | x :: xs => (if x == ch then ['\\', ch] else [x]) ++ escapeChar ch xs

/-- Embeds `SecureSearchEngine._escape_fts5_chars`: sequentially escape each
reserved character except the double quote. -/
def escapeFts5Chars (text : List Char) : List Char :=
  fts5SpecialChars.foldl (fun t ch => if ch == '"' then t else escapeChar ch t) text

/-- Per-character view of the composed escape loop (proved equal to
`escapeFts5Chars` below). -/
def escChunk (c : Char) : List Char := if isSpecialNQ c then ['\\', c] else [c]

/-- Word character for the regex `\b` boundary (`[A-Za-z0-9_]`, ASCII
fragment of Python `\w`). -/
def isWordChar (c : Char) : Bool := c.isAlphanum || c == '_'

/-- Case-insensitive literal match of `pat` against a prefix of the input;
returns the matched slice (original case) and the remainder. -/
def matchCI : List Char → List Char → Option (List Char × List Char)
  | [], s => some ([], s)
  | _ :: _, [] => none
  | p :: ps, c :: cs =>
    if c.toUpper == p then (matchCI ps cs).map (fun mr => (c :: mr.1, mr.2)) else none

/-- The `\b` boundary to the right of a match: end of input or a non-word
character. -/
def boundaryOk : List Char → Bool
  | [] => true
  | c :: _ => !(isWordChar c)

/-- Try to match one operator word (with its right boundary) at the current
position. -/
def tryOp (op : List Char) (s : List Char) : Option (List Char × List Char) :=
  match matchCI op s with
  | some (m, rest) => if boundaryOk rest then some (m, rest) else none
  | none => none

/-- Try the alternation `\b(AND|OR|NOT|NEAR)\b` at the current position;
`prevW` says whether the preceding character is a word character (left
boundary).  Alternatives are tried in the pattern's order. -/
def tryOps (prevW : Bool) (s : List Char) : Option (List Char × List Char) :=
  if prevW then none
  else
    match tryOp ['A', 'N', 'D'] s with
    | some r => some r
    | none =>
      match tryOp ['O', 'R'] s with
      | some r => some r
      | none =>
        match tryOp ['N', 'O', 'T'] s with
        | some r => some r
        | none => tryOp ['N', 'E', 'A', 'R'] s

/-- Leftmost match of the operator pattern: returns
`(text before, matched slice, remainder)`. -/
def findOp (prevW : Bool) : List Char → Option (List Char × List Char × List Char)
  | [] => (tryOps prevW []).map fun mr => ([], mr.1, mr.2)
  | c :: cs =>
    match tryOps prevW (c :: cs) with
    | some (m, rest) => some ([], m, rest)
    | none => (findOp (isWordChar c) cs).map fun pmr => (c :: pmr.1, pmr.2.1, pmr.2.2)

/-- Embeds `re.split(r'\b(AND|OR|NOT|NEAR)\b', query, flags=re.IGNORECASE)` with the
capturing group: alternating text and operator slices.  `fuel` bounds the
recursion (the top-level wrapper supplies enough); an exhausted budget
returns the remainder unsplit, which never happens for the wrapper's
budget.  After a match the scan resumes with a word character (the
operator's last letter) on its left. -/
def splitBoolF : Nat → Bool → List Char → List (List Char)
  | 0, _, s => [s]
  | fuel + 1, prevW, s =>
    match findOp prevW s with
    | none => [s]
    | some (pre, m, rest) => pre :: m :: splitBoolF fuel true rest

def splitBool (s : List Char) : List (List Char) := splitBoolF (s.length + 1) false s

/-- The disposition of one split fragment in `_process_boolean_query`:
operators are upper-cased and passed through, other fragments stripped
and escaped, empties dropped. -/
def boolPieceFn (part : List Char) : Option (List Char) :=
  if upperL part ∈ booleanOperators then some (upperL part)
  else if escapeFts5Chars (stripChars part) == [] then none
  else some (escapeFts5Chars (stripChars part))

/-- The pieces `_process_boolean_query` collects. -/
def boolPieces (q : List Char) : List (List Char) :=
  (splitBool q).filterMap boolPieceFn

/-- Embeds `SecureSearchEngine._process_boolean_query`. -/
def processBooleanQuery (q : List Char) : List Char := joinWith ' ' (boolPieces q)

/-- The pieces `_escape_phrase_query` collects; the flag says whether the
current fragment is at an odd index (inside quotes). -/
def phrasePieces : Bool → List (List Char) → List (List Char)
  | _, [] => []
  | inQ, p :: ps =>
    (if inQ then ['"' :: (escapeFts5Chars p ++ ['"'])]
     else if stripChars p == [] then [] else [escapeFts5Chars p]) ++ phrasePieces (!inQ) ps

/-- Embeds `SecureSearchEngine._escape_phrase_query`. -/
def escapePhraseQuery (q : List Char) : List Char :=
  joinWith ' ' (phrasePieces false (pySplitOn '"' q))

/-- Embeds `has_operators`: some operator occurs surrounded by single spaces in the
upper-cased query. -/
def hasOperatorsB (q : List Char) : Bool :=
  booleanOperators.any fun op => occursIn (' ' :: (op ++ [' '])) (upperL q)

/-- Embeds `SecureSearchEngine._process_secure_query`. -/
def processSecureQuery (q : List Char) : List Char :=
  if q.contains '"' then escapePhraseQuery q
  else if hasOperatorsB q then processBooleanQuery q
  else
    let escaped := escapeFts5Chars q
    if (pyWords escaped).length > 1 then '"' :: (escaped ++ ['"']) else escaped

/-- The `ValueError` classes `_validate_query` raises. -/
inductive QueryError
  | emptyQuery
  | tooShort
  | tooLong
deriving DecidableEq

/-- Embeds `SecureSearchEngine._validate_query`: reject empty input, remove null
bytes, trim, enforce length bounds, return the sanitized query. -/
def validateQuery (query : List Char) : Except QueryError (List Char) :=
  if query == [] then .error .emptyQuery
  else
    let q1 := query.filter fun c => !(c == Char.ofNat 0)
    let q2 := stripChars q1
    if q2.length < minQueryLength then .error .tooShort
    else if q2.length > maxQueryLength then .error .tooLong
    else .ok q2

/-! ## Snippet sanitization (`_sanitize_snippet`) -/

/-- Python `str.replace(pat, rep)` for a multi-character pattern: leftmost,
non-overlapping.  The source only calls it with non-empty patterns; an
empty pattern is returned unchanged here. -/
def replaceSeq (pat rep : List Char) : List Char → List Char
  | [] => []
  | x :: xs =>
    if h : (!(pat == [])) && leadsWith pat (x :: xs) then
      rep ++ replaceSeq pat rep (List.drop pat.length (x :: xs))
    else x :: replaceSeq pat rep xs
termination_by l => l.length
decreasing_by
  · simp only [Bool.and_eq_true, beq_iff_eq, Bool.not_eq_true'] at h
    have hp : pat ≠ [] := by simpa using h.1
    have : 0 < pat.length := List.length_pos.mpr hp
    simp only [List.length_drop, List.length_cons]
    omega
  · simp [Nat.lt_succ_self]

/-- Per-character table of Python `html.escape(s, quote=True)`: the five
sequential single-character replacements composed (none of the
replacement texts contains a character replaced later). -/
def htmlEscapeChunk (c : Char) : List Char :=
  if c == '&' then ['&', 'a', 'm', 'p', ';']
  else if c == '<' then ['&', 'l', 't', ';']
  else if c == '>' then ['&', 'g', 't', ';']
  else if c == '"' then ['&', 'q', 'u', 'o', 't', ';']
  else if c == '\'' then ['&', '#', 'x', '2', '7', ';']
  else [c]

def htmlEscape (s : List Char) : List Char := concatMap htmlEscapeChunk s

def markOpenEsc : List Char := r"&lt;mark&gt;".toList

def markOpen : List Char := r"<mark>".toList

def markCloseEsc : List Char := r"&lt;/mark&gt;".toList

def markClose : List Char := r"</mark>".toList

/-- Embeds `SecureSearchEngine._sanitize_snippet`: HTML-escape everything, then
restore the store's highlight markers. -/
def sanitizeSnippet (s : List Char) : List Char :=
  replaceSeq markCloseEsc markClose (replaceSeq markOpenEsc markOpen (htmlEscape s))

/-! ## The search wrapper (`SecureSearchEngine.search`) -/

/-- One row as returned by `DatabaseManager.search_conversations`; the
snippet is optional because the wrapper checks for its presence. -/
structure ResultRow where
  conversationId : List Char
  timestamp : Int
  sender : List Char
  snippet : Option (List Char)
  title : List Char
  messageCount : Nat
  updatedAt : Int
  rank : Int
deriving DecidableEq

/-- The fixed user-facing error text of the failure path, as an opaque tag. -/
inductive RespError
  | searchFailed
deriving DecidableEq

/-- The response dictionary of `SecureSearchEngine.search`.  `none` in an
optional field models the absence of the corresponding key (the failure
path's dictionary carries no `limit`, `offset` or `has_more` keys). -/
structure Response where
  query : List Char
  processedQuery : Option (List Char)
  results : List ResultRow
  count : Nat
  total : Nat
  limit : Option Int
  offset : Option Int
  hasMore : Option Bool
  cached : Bool
  error : Option RespError
deriving DecidableEq

/-- One row of the `search_audit` table as written by
`DatabaseManager.log_search_audit`; exception payloads (`str(e)`) are
opaque `Nat` codes. -/
structure AuditRecord where
  queryHash : List Char
  userId : Option (List Char)
  queryLength : Nat
  fromCache : Bool
  durationMs : Nat
  error : Option Nat
deriving DecidableEq

/-- The store, cache and clock surrounding one `search` call.  `cacheGet` is
keyed by the data hashed into the Redis key (validated query, clamped
limit and offset); `sha256hex` is the opaque digest used for audit
hashing; raised store exceptions are opaque `Nat` codes. -/
structure SearchEnv where
  dbSearch : List Char → Int → Int → Except Nat (List ResultRow)
  dbCount : List Char → Except Nat Nat
  cacheGet : List Char → Int → Int → Option Response
  sha256hex : List Char → List Char
  durationMs : Nat

/-- Embeds `SecureSearchEngine._hash_query`: first 16 hex digits of the digest. -/
def hashQuery (env : SearchEnv) (q : List Char) : List Char := (env.sha256hex q).take 16

/-- The audit record `_log_search_audit` hands to the store. -/
def mkAudit (env : SearchEnv) (q : List Char) (userId : Option (List Char))
    (fromCache : Bool) (err : Option Nat) : AuditRecord :=
  ⟨hashQuery env q, userId, q.length, fromCache, env.durationMs, err⟩

/-- Snippet sanitization applied to one result row. -/
def sanitizeRow (r : ResultRow) : ResultRow :=
  ⟨r.conversationId, r.timestamp, r.sender, r.snippet.map sanitizeSnippet,
   r.title, r.messageCount, r.updatedAt, r.rank⟩

/-- Embeds `result['cached'] = True` on a cache hit. -/
def setCached (r : Response) : Response :=
  ⟨r.query, r.processedQuery, r.results, r.count, r.total, r.limit, r.offset,
   r.hasMore, true, r.error⟩

/-- Embeds `limit = min(max(1, limit), MAX_RESULTS_PER_PAGE)`. -/
def clampLimit (l : Int) : Int := min (max 1 l) maxResultsPerPage

/-- Embeds `offset = max(0, offset)`. -/
def clampOffset (o : Int) : Int := max 0 o

/-- Embeds `SecureSearchEngine._count_results`: store errors are swallowed and
reported as a total of 0. -/
def countTotal (env : SearchEnv) (pq : List Char) : Nat :=
  match env.dbCount pq with
  | .ok n => n
  | .error _ => 0

/-- Embeds `SecureSearchEngine.search`.  The first component is the returned
response or the `ValueError` the call raises; the second lists the audit
records written during the call, in order.  Validation happens before the
`try` block, so its `ValueError` propagates and writes no audit record. -/
def secureSearch (env : SearchEnv) (query : List Char) (limit offset : Int)
    (userId : Option (List Char)) : Except QueryError Response × List AuditRecord :=
  match validateQuery query with
  | .error e => (.error e, [])
  | .ok q =>
    match env.cacheGet q (clampLimit limit) (clampOffset offset) with
    | some cached => (.ok (setCached cached), [mkAudit env q userId true none])
    | none =>
      match env.dbSearch (processSecureQuery q) (clampLimit limit) (clampOffset offset) with
      | .ok rows =>
        (.ok ⟨q, some (processSecureQuery q), rows.map sanitizeRow,
           (rows.map sanitizeRow).length, countTotal env (processSecureQuery q),
           some (clampLimit limit), some (clampOffset offset),
           some (decide (clampOffset offset + ((rows.map sanitizeRow).length : Int)
             < (countTotal env (processSecureQuery q) : Int))), false, none⟩,
         [mkAudit env q userId false none])
      | .error e =>
        (.ok ⟨q, none, [], 0, 0, none, none, none, false, some .searchFailed⟩,
         [mkAudit env q userId false (some e)])

/-! ## Storage engine ingestion (`DatabaseManager` of `database_enhanced.py`) -/

/-- One `(sender, content, timestamp)` message tuple handed to
`insert_conversation`; timestamps are epoch seconds. -/
structure Msg where
  sender : List Char
  content : List Char
  timestamp : Nat
deriving DecidableEq

/-- One row of the `conversations` FTS5 table. -/
structure FtsRow where
  conversationId : List Char
  timestamp : Nat
  sender : List Char
  content : List Char
deriving DecidableEq

/-- One row of the `metadata` table. -/
structure MetaRow where
  conversationId : List Char
  title : List Char
  messageCount : Nat
  createdAt : Nat
  updatedAt : Nat
  checksum : List Char
deriving DecidableEq

/-- The two tables `insert_conversation` touches; `conversations` in
insertion order, `metadata` keyed by `conversation_id`. -/
structure DBState where
  conversations : List FtsRow
  metadata : List MetaRow
deriving DecidableEq

def emptyDB : DBState := ⟨[], []⟩

/-- Injective rendering of `str((sender, content, timestamp))`. -/
def msgRepr (m : Msg) : List Char :=
  '(' :: (m.sender ++ ',' :: (m.content ++ ',' :: (Nat.toDigits 10 m.timestamp ++ [')'])))

/-- Embeds `_calculate_checksum` over the ordered message tuples.  SHA-256 is
modelled as the identity on the hashed byte stream: the claims only use
that equal inputs give equal digests. -/
def calcChecksum (msgs : List Msg) : List Char := concatMap msgRepr msgs

/-- Embeds `if not checksum: checksum = self._calculate_checksum(messages)` — a
missing or empty checksum argument is replaced by the computed one. -/
def resolveChecksum : Option (List Char) → List Msg → List Char
  | some c, msgs => if c == [] then calcChecksum msgs else c
  | none, msgs => calcChecksum msgs

/-- Embeds `SELECT checksum FROM metadata WHERE conversation_id = ?`. -/
def lookupMeta (st : DBState) (cid : List Char) : Option MetaRow :=
  st.metadata.find? fun r => r.conversationId == cid

/-- Embeds `messages[0][2].isoformat() if messages else datetime.now().isoformat()`. -/
def createdOf (messages : List Msg) (now : Nat) : Nat :=
  match messages with
  | [] => now
  | m :: _ => m.timestamp

/-- Embeds `messages[-1][2].isoformat() if messages else datetime.now().isoformat()`. -/
def updatedOf (messages : List Msg) (now : Nat) : Nat :=
  match messages.getLast? with
  | some m => m.timestamp
  | none => now

/-- Embeds `DatabaseManager.insert_conversation`: skip when the stored checksum
matches, otherwise append the message rows to the FTS table and
`INSERT OR REPLACE` the metadata row.  `now` stands for `datetime.now()`
(used only when `messages` is empty).  Returns the new state and the
number of inserted messages. -/
def insertConversation (st : DBState) (cid title : List Char) (messages : List Msg)
    (checksum : Option (List Char)) (now : Nat) : DBState × Nat :=
  let ck := resolveChecksum checksum messages
  let skip := match lookupMeta st cid with
    | some row => row.checksum == ck
    | none => false
  if skip then (st, 0)
  else
    let rows := messages.map fun m => FtsRow.mk cid m.timestamp m.sender m.content
    let meta := MetaRow.mk cid title messages.length (createdOf messages now)
      (updatedOf messages now) ck
    (⟨st.conversations ++ rows,
      st.metadata.filter (fun r => !(r.conversationId == cid)) ++ [meta]⟩,
     messages.length)

/-- The arguments of one `insert_conversation` call. -/
structure InsertCall where
  cid : List Char
  title : List Char
  messages : List Msg
  checksum : Option (List Char)
  now : Nat
deriving DecidableEq

def applyInsert (st : DBState) (c : InsertCall) : DBState :=
  (insertConversation st c.cid c.title c.messages c.checksum c.now).1

def runInserts (st : DBState) (calls : List InsertCall) : DBState :=
  calls.foldl applyInsert st

/-- A call that does not re-ingest an existing id with a different
checksum: either the id is new or the call is a checksum-matching skip. -/
def safeCall (st : DBState) (c : InsertCall) : Bool :=
  match lookupMeta st c.cid with
  | none => true
  | some row => row.checksum == resolveChecksum c.checksum c.messages

def allSafe : DBState → List InsertCall → Bool
  | _, [] => true
  | st, c :: cs => safeCall st c && allSafe (applyInsert st c) cs

/-- The `message_count` the metadata table reports for an id (0 when the id
is absent). -/
def metaCountOf (st : DBState) (cid : List Char) : Nat :=
  ((lookupMeta st cid).map MetaRow.messageCount).getD 0

/-- The number of full-text rows stored for an id. -/
def ftsCountOf (st : DBState) (cid : List Char) : Nat :=
  (st.conversations.filter fun r => r.conversationId == cid).length

/-- Spec invariant (1): every id's metadata count matches its index rows. -/
def countsInv (st : DBState) : Prop := ∀ cid, metaCountOf st cid = ftsCountOf st cid

/-! ## Streaming archive parser (`streaming_parser.py`) -/

/-- Decoded JSON values as the `ijson` stream yields them. -/
inductive JVal
  | str (s : List Char)
  | num (n : Int)
  | jbool (b : Bool)
  | null
  | arr (xs : List JVal)
  | obj (fields : List (List Char × JVal))

/-- Python truthiness of a decoded JSON value. -/
def pyTruthy : JVal → Bool
  | .str s => !(s == [])
  | .num n => !(n == 0)
  | .jbool b => b
  | .null => false
  | .arr xs => !(xs.length == 0)
  | .obj fs => !(fs.length == 0)

def isObjJ : JVal → Bool
  | .obj _ => true
  | _ => false

/-- Embeds `dict.get`: the first binding for the key, if any. -/
def jGet : List (List Char × JVal) → List Char → Option JVal
  | [], _ => none
  | (k, v) :: rest, key => if k == key then some v else jGet rest key

/-- Decimal rendering of an integer. -/
def intRepr (n : Int) : List Char :=
  if n < 0 then '-' :: Nat.toDigits 10 n.natAbs else Nat.toDigits 10 n.natAbs

mutual

/-- Python `str(value)` for decoded JSON values; container renderings are
schematic but injective. -/
def pyStr : JVal → List Char
  | .str s => s
  | .num n => intRepr n
  | .jbool b => if b then r"True".toList else r"False".toList
  | .null => r"None".toList
  | .arr xs => '[' :: (pyStrL xs ++ [']'])
  | .obj fs => '<' :: (pyStrP fs ++ ['>'])

def pyStrL : List JVal → List Char
  | [] => []
  | x :: xs => pyStr x ++ pyStrL xs

def pyStrP : List (List Char × JVal) → List Char
  | [] => []
  | (k, v) :: fs => k ++ pyStr v ++ pyStrP fs

end

/-- The exception classes the per-element decoding can raise. -/
inductive PyExc
  | attributeError
  | typeError
deriving DecidableEq

/-- Python iteration over a decoded JSON value: lists yield elements,
strings yield one-character strings, dicts yield their keys, anything
else raises `TypeError`. -/
def pyIter : JVal → Except PyExc (List JVal)
  | .arr xs => .ok xs
  | .str s => .ok (s.map fun c => .str [c])
  | .obj fs => .ok (fs.map fun kv => .str kv.1)
  | _ => .error .typeError

/-- Embeds `datetime.fromtimestamp(value)`: numbers (and bools) convert, anything
else raises `TypeError`. -/
def toTimestamp : JVal → Except PyExc Int
  | .num n => .ok n
  | .jbool b => .ok (if b then 1 else 0)
  | _ => .error .typeError

/-- Embeds `Message` dataclass; `id` and `author_role` keep whatever value the
export held. -/
structure Message where
  id : JVal
  authorRole : JVal
  content : List Char
  createTime : Int

/-- Embeds `Conversation` dataclass. -/
structure Conversation where
  id : JVal
  title : JVal
  createTime : Int
  updateTime : Int
  messages : List Message

/-- Error-propagating map, evaluated left to right like a Python list
comprehension. -/
def mapExcept (f : α → Except ε β) : List α → Except ε (List β)
  | [] => .ok []
  | a :: as => do
    let b ← f a
    let bs ← mapExcept f as
    .ok (b :: bs)

/-- Embeds `Message.from_dict`: flatten `content.parts` (dropping falsy parts),
default the author role, convert the timestamp.  A non-dict `content` or
`author` value raises `AttributeError` from the chained `.get`. -/
def messageFromDict (fs : List (List Char × JVal)) : Except PyExc Message := do
  let contentVal := (jGet fs (r"content".toList)).getD (.obj [])
  let partsVal ← match contentVal with
    | .obj cfs => .ok ((jGet cfs (r"parts".toList)).getD (.arr []))
    | _ => .error PyExc.attributeError
  let parts ← pyIter partsVal
  let content := joinWith ' ' ((parts.filter pyTruthy).map pyStr)
  let authorVal := (jGet fs (r"author".toList)).getD (.obj [])
  let roleVal ← match authorVal with
    | .obj afs => .ok ((jGet afs (r"role".toList)).getD (.str (r"unknown".toList)))
    | _ => .error PyExc.attributeError
  let ct ← toTimestamp ((jGet fs (r"create_time".toList)).getD (.num 0))
  .ok ⟨(jGet fs (r"id".toList)).getD (.str []), roleVal, content, ct⟩

/-- Embeds `Conversation.from_dict`: keep only truthy dict entries of `messages`,
decode each (first failure propagates), then fill the remaining fields. -/
def conversationFromDict (e : JVal) : Except PyExc Conversation := do
  match e with
  | .obj fs =>
    let msgsVal := (jGet fs (r"messages".toList)).getD (.arr [])
    let items ← pyIter msgsVal
    let dicts := items.filter fun m => pyTruthy m && isObjJ m
    let messages ← mapExcept
      (fun m => match m with
        | .obj mfs => messageFromDict mfs
        | _ => .error PyExc.typeError) dicts
    let ct ← toTimestamp ((jGet fs (r"create_time".toList)).getD (.num 0))
    let ut ← toTimestamp ((jGet fs (r"update_time".toList)).getD (.num 0))
    .ok ⟨(jGet fs (r"id".toList)).getD (.str []),
         (jGet fs (r"title".toList)).getD (.str (r"Untitled".toList)), ct, ut, messages⟩
  | _ => .error PyExc.typeError

/-- The loop body of `parse_conversations` for one top-level element:
non-dict elements are skipped with a warning, per-element decode errors
are logged and skipped, and only conversations with messages are
yielded. -/
def elementYield (e : JVal) : Option Conversation :=
  if isObjJ e then
    match conversationFromDict e with
    | .ok conv => if conv.messages.length == 0 then none else some conv
    | .error _ => none
  else none

/-- Embeds `StreamingJSONParser.parse_conversations`.  The input is `none` when
the file cannot be opened or its top-level structure is not a valid
array (the outer `except` re-raises), otherwise the list of decoded
top-level elements. -/
def parseConversations : Option (List JVal) → Except Unit (List Conversation)
  | none => .error ()
  | some elems => .ok (elems.filterMap elementYield)

/-! ## Escapedness predicates for the compiled query -/

/-- A character list in escaped form: it parses as a sequence of tokens,
each either a backslash followed by any character or a single
non-reserved character. -/
inductive EscForm : List Char → Prop
  | nil : EscForm []
  | esc (c : Char) (rest : List Char) : EscForm rest → EscForm ('\\' :: c :: rest)
  | plain (c : Char) (rest : List Char) :
      isSpecialNQ c = false → EscForm rest → EscForm (c :: rest)

/-- Positional reading of the claim: every occurrence of a reserved
metacharacter (other than the double quote) is immediately preceded by
the escape marker. -/
def escapedPositions (l : List Char) : Prop :=
  ∀ i, i < l.length → isSpecialNQ (l.getD i ' ') = true →
    ∃ j, i = j + 1 ∧ l.getD j ' ' = '\\'

/-- The claim's hypothesis for the boolean branch: the query contains one
of the operator words as a `\b`-delimited whole word (case-insensitive),
decided with the same matcher that embeds the splitting regex. -/
def containsWholeWordOp (q : List Char) : Bool := (findOp false q).isSome

/-! ## Response invariant and concrete instances used by claim theorems -/

/-- The pagination invariant of a search response: `count` is the number of
result rows and, for non-error responses, `has_more` is present and
equals `(offset + count) < total` at the response's own offset. -/
def respOk (r : Response) : Prop :=
  r.count = r.results.length ∧
    (r.error = none → ∃ off, r.offset = some off ∧
      r.hasMore = some (decide (off + (r.count : Int) < (r.total : Int))))

/-- A concrete healthy environment: empty result set, five total matches, no
cache, identity digest. -/
def env0 : SearchEnv :=
  ⟨fun _ _ _ => .ok [], fun _ => .ok 5, fun _ _ _ => none, fun l => l, 7⟩

/-- A concrete environment whose store search raises (opaque exception 42). -/
def envErr : SearchEnv :=
  ⟨fun _ _ _ => .error 42, fun _ => .ok 5, fun _ _ _ => none, fun l => l, 7⟩

/-- The response `env0` produces for the query `hello` (any limit ≥ 100 after
clamping, offset clamped to 0). -/
def respW : Response :=
  ⟨r"hello".toList, some (r"hello".toList), [], 0, 5, some 100, some 0,
   some true, false, none⟩

/-- The compiled output for the query `x (and) y` (claim C4's whole-word
operator input): the simple branch quotes it and leaves `and` lower-case
and the parentheses escaped. -/
def c4expected : List Char := "\"x \\(and\\) y\"".toList

/-- Concrete messages and states for the ingestion claims. -/
def msgA : Msg := ⟨r"u".toList, r"a".toList, 0⟩

def msgB : Msg := ⟨r"u".toList, r"b".toList, 1⟩

def cidC : List Char := r"c".toList

/-- The state after ingesting conversation `c` with one message. -/
def dbSt1 : DBState := (insertConversation emptyDB cidC (r"t".toList) [msgA] none 0).1

/-- The metadata row `dbSt1` stores for `c`. -/
def metaW : MetaRow := ⟨cidC, r"t".toList, 1, 0, 0, calcChecksum [msgA]⟩

/-- Re-ingesting `c` with a second message (different checksum) on top of
`dbSt1`: the old index row is not deleted. -/
def dbSt2 : DBState :=
  (insertConversation dbSt1 cidC (r"t".toList) [msgA, msgB] none 0).1

def callW : InsertCall := ⟨cidC, r"t".toList, [msgA], none, 0⟩

/-- A top-level archive element whose only message flattens to the single
whitespace character: `{"messages": [{"content": {"parts": [" "]}}]}`. -/
def e9 : JVal :=
  .obj [(r"messages".toList,
    .arr [.obj [(r"content".toList, .obj [(r"parts".toList, .arr [.str [' ']])])]])]

/-- The conversation the parser yields for `e9`. -/
def conv9 : Conversation :=
  ⟨.str [], .str (r"Untitled".toList), 0, 0,
   [⟨.str [], .str (r"unknown".toList), [' '], 0⟩]⟩

/-- An element whose decode raises: `create_time` holds a string, so
`datetime.fromtimestamp` raises `TypeError`. -/
def eBad : JVal := .obj [(r"create_time".toList, .str (r"x".toList))]

/-- A decodable element with one non-empty message. -/
def eGood : JVal :=
  .obj [(r"messages".toList,
    .arr [.obj [(r"content".toList, .obj [(r"parts".toList, .arr [.str (r"hi".toList)])])]])]

/-! # Lemmas and claim theorems -/

/-! ## The escape loop -/

lemma escapeChar_cons (c x : Char) (xs : List Char) :
    escapeChar c (x :: xs) = (if x == c then ['\\', c] else [x]) ++ escapeChar c xs := rfl

lemma escapeChar_append (c : Char) (l1 l2 : List Char) :
    escapeChar c (l1 ++ l2) = escapeChar c l1 ++ escapeChar c l2 := by
  induction l1 with
  | nil => rfl
  | cons x xs ih => simp [escapeChar_cons, ih]

lemma escapeFts5Chars_eq (t : List Char) :
    escapeFts5Chars t =
      escapeChar '^' (escapeChar ':' (escapeChar '*'
        (escapeChar ')' (escapeChar '(' (escapeChar '\'' t))))) := rfl

lemma escapeFts5Chars_nil : escapeFts5Chars [] = [] := rfl

lemma escapeFts5Chars_cons (a : Char) (l : List Char) :
    escapeFts5Chars (a :: l) = escChunk a ++ escapeFts5Chars l := by
  rw [escapeFts5Chars_eq, escapeFts5Chars_eq]
  by_cases h1 : a = '\''
  · subst h1
    simp [escapeChar_cons, escapeChar_append, escChunk, isSpecialNQ, escapeChar]
  · by_cases h2 : a = '('
    · subst h2
      simp [escapeChar_cons, escapeChar_append, escChunk, isSpecialNQ, escapeChar]
    · by_cases h3 : a = ')'
      · subst h3
        simp [escapeChar_cons, escapeChar_append, escChunk, isSpecialNQ, escapeChar]
      · by_cases h4 : a = '*'
        · subst h4
          simp [escapeChar_cons, escapeChar_append, escChunk, isSpecialNQ, escapeChar]
        · by_cases h5 : a = ':'
          · subst h5
            simp [escapeChar_cons, escapeChar_append, escChunk, isSpecialNQ, escapeChar]
          · by_cases h6 : a = '^'
            · subst h6
              simp [escapeChar_cons, escapeChar_append, escChunk, isSpecialNQ, escapeChar]
            · simp [escapeChar_cons, escapeChar_append, escChunk, isSpecialNQ,
                beq_iff_eq, h1, h2, h3, h4, h5, h6, escapeChar]

lemma escChunk_ne_nil (a : Char) : escChunk a ≠ [] := by
  unfold escChunk
  by_cases h : isSpecialNQ a <;> simp [h]

lemma escapeFts5Chars_eq_nil {l : List Char} (h : escapeFts5Chars l = []) : l = [] := by
  cases l with
  | nil => rfl
  | cons a as =>
    rw [escapeFts5Chars_cons] at h
    exact absurd (List.append_eq_nil.mp h).1 (escChunk_ne_nil a)

lemma escForm_append {l1 l2 : List Char} (h1 : EscForm l1) (h2 : EscForm l2) :
    EscForm (l1 ++ l2) := by
  induction h1 with
  | nil => simpa using h2
  | esc c rest _ ih => exact EscForm.esc c _ ih
  | plain c rest hc _ ih => exact EscForm.plain c _ hc ih

lemma escForm_escape (l : List Char) : EscForm (escapeFts5Chars l) := by
  induction l with
  | nil => exact EscForm.nil
  | cons a as ih =>
    rw [escapeFts5Chars_cons]
    by_cases h : isSpecialNQ a = true
    · simpa [escChunk, h] using EscForm.esc a _ ih
    · rw [Bool.not_eq_true] at h
      simpa [escChunk, h] using EscForm.plain a _ h ih

lemma escForm_of_no_specials {l : List Char} (h : ∀ x ∈ l, isSpecialNQ x = false) :
    EscForm l := by
  induction l with
  | nil => exact EscForm.nil
  | cons a as ih =>
    exact EscForm.plain a _ (h a (List.mem_cons_self a as))
      (ih fun x hx => h x (List.mem_cons_of_mem a hx))

lemma escForm_positions {l : List Char} (h : EscForm l) : escapedPositions l := by
  induction h with
  | nil => intro i hi; simp at hi
  | esc c rest _ ih =>
    intro i hi hsp
    match i with
    | 0 => simp [isSpecialNQ] at hsp
    | 1 => exact ⟨0, rfl, rfl⟩
    | (k + 2) =>
      simp only [List.getD_cons_succ] at hsp
      simp only [List.length_cons] at hi
      obtain ⟨j, hj, hbs⟩ := ih k (by omega) hsp
      refine ⟨j + 2, by omega, ?_⟩
      simpa [List.getD_cons_succ] using hbs
  | plain c rest hc _ ih =>
    intro i hi hsp
    match i with
    | 0 => simp only [List.getD_cons_zero] at hsp; rw [hsp] at hc; cases hc
    | (k + 1) =>
      simp only [List.getD_cons_succ] at hsp
      simp only [List.length_cons] at hi
      obtain ⟨j, hj, hbs⟩ := ih k (by omega) hsp
      refine ⟨j + 1, by omega, ?_⟩
      simpa [List.getD_cons_succ] using hbs

/-! ## Counting reserved characters -/

lemma isSpecialNQ_cases {c : Char} (hc : isSpecialNQ c = true) :
    c = '\'' ∨ c = '(' ∨ c = ')' ∨ c = '*' ∨ c = ':' ∨ c = '^' := by
  simp only [isSpecialNQ, Bool.or_eq_true, beq_iff_eq] at hc
  tauto

lemma special_ne_backslash {c : Char} (hc : isSpecialNQ c = true) : c ≠ '\\' := by
  rcases isSpecialNQ_cases hc with rfl | rfl | rfl | rfl | rfl | rfl <;> decide

lemma special_ne_quote {c : Char} (hc : isSpecialNQ c = true) : c ≠ '"' := by
  rcases isSpecialNQ_cases hc with rfl | rfl | rfl | rfl | rfl | rfl <;> decide

lemma special_ne_space {c : Char} (hc : isSpecialNQ c = true) : c ≠ ' ' := by
  rcases isSpecialNQ_cases hc with rfl | rfl | rfl | rfl | rfl | rfl <;> decide

lemma special_not_ws {c : Char} (hc : isSpecialNQ c = true) : c.isWhitespace = false := by
  rcases isSpecialNQ_cases hc with rfl | rfl | rfl | rfl | rfl | rfl <;> decide

lemma special_toUpper {c : Char} (hc : isSpecialNQ c = true) : c.toUpper = c := by
  rcases isSpecialNQ_cases hc with rfl | rfl | rfl | rfl | rfl | rfl <;> decide

lemma count_escChunk {c : Char} (hc : isSpecialNQ c = true) (a : Char) :
    List.count c (escChunk a) = List.count c [a] := by
  have hbs : ('\\' == c) = false := by
    simp [beq_eq_false_iff_ne]
    exact fun h => special_ne_backslash hc h.symm
  unfold escChunk
  by_cases h : isSpecialNQ a <;> simp [h, List.count_cons, hbs]

lemma count_escape {c : Char} (hc : isSpecialNQ c = true) (l : List Char) :
    List.count c (escapeFts5Chars l) = List.count c l := by
  induction l with
  | nil => rfl
  | cons a as ih =>
    rw [escapeFts5Chars_cons, List.count_append, count_escChunk hc, ih]
    simp [List.count_cons]
    omega

lemma count_dropWhile {c : Char} {p : Char → Bool} (hpc : p c = false) (l : List Char) :
    List.count c (l.dropWhile p) = List.count c l := by
  induction l with
  | nil => rfl
  | cons a as ih =>
    rw [List.dropWhile_cons]
    by_cases h : p a = true
    · have hac : (a == c) = false := by
        simp [beq_eq_false_iff_ne]
        intro he
        rw [he] at h
        rw [h] at hpc
        cases hpc
      simp [h, ih, List.count_cons, hac]
    · rw [Bool.not_eq_true] at h
      simp [h]

lemma count_strip {c : Char} (hws : c.isWhitespace = false) (l : List Char) :
    List.count c (stripChars l) = List.count c l := by
  unfold stripChars
  rw [List.count_reverse, count_dropWhile hws, List.count_reverse, count_dropWhile hws]

lemma count_strip_nil {c : Char} (hws : c.isWhitespace = false) {l : List Char}
    (h : stripChars l = []) : List.count c l = 0 := by
  rw [← count_strip hws l, h]
  rfl

lemma count_le_map {c : Char} {f : Char → Char} (hf : f c = c) (l : List Char) :
    List.count c l ≤ List.count c (l.map f) := by
  induction l with
  | nil => simp
  | cons a as ih =>
    simp only [List.map_cons, List.count_cons]
    by_cases h : a = c
    · subst h
      simp [hf]
      omega
    · have hac : (a == c) = false := by simpa [beq_eq_false_iff_ne] using h
      simp [hac]
      omega

lemma count_op_zero {c : Char} (hc : isSpecialNQ c = true) {w : List Char}
    (hw : w ∈ booleanOperators) : List.count c w = 0 := by
  rw [List.count_eq_zero]
  intro hmem
  simp only [booleanOperators, List.mem_cons, List.not_mem_nil, or_false] at hw
  rcases hw with rfl | rfl | rfl | rfl <;>
    rcases isSpecialNQ_cases hc with rfl | rfl | rfl | rfl | rfl | rfl <;>
      simp at hmem

lemma count_upper_op {c : Char} (hc : isSpecialNQ c = true) {part : List Char}
    (hop : upperL part ∈ booleanOperators) : List.count c part = 0 := by
  have h1 : List.count c part ≤ List.count c (upperL part) :=
    count_le_map (special_toUpper hc) part
  have h2 : List.count c (upperL part) = 0 := count_op_zero hc hop
  omega

lemma count_joinWith {c sep : Char} (h : c ≠ sep) (parts : List (List Char)) :
    List.count c (joinWith sep parts) = (parts.map (List.count c)).sum := by
  induction parts with
  | nil => rfl
  | cons p ps ih =>
    cases ps with
    | nil => simp [joinWith]
    | cons q qs =>
      have hj : joinWith sep (p :: q :: qs) = p ++ sep :: joinWith sep (q :: qs) := rfl
      have hsc : (sep == c) = false := by
        simp [beq_eq_false_iff_ne]
        exact fun he => h he.symm
      rw [hj, List.count_append, List.count_cons, ih]
      simp [hsc]

lemma count_concatL (c : Char) (parts : List (List Char)) :
    List.count c (concatL parts) = (parts.map (List.count c)).sum := by
  induction parts with
  | nil => rfl
  | cons p ps ih => simp [concatL, List.count_append, ih]

/-! ## Structure of the operator split -/
lemma matchCI_nil_pat (s : List Char) : matchCI [] s = some ([], s) := rfl

lemma matchCI_nil_input (p : Char) (ps : List Char) : matchCI (p :: ps) [] = none := rfl

lemma matchCI_cons (p : Char) (ps : List Char) (c : Char) (cs : List Char) :
    matchCI (p :: ps) (c :: cs) =
      if c.toUpper == p then (matchCI ps cs).map (fun mr => (c :: mr.1, mr.2)) else none := rfl

lemma matchCI_eq : ∀ {op s m rest : List Char},
    matchCI op s = some (m, rest) → s = m ++ rest ∧ m.length = op.length := by
  intro op
  induction op with
  | nil =>
    intro s m rest h
    rw [matchCI_nil_pat] at h
    simp only [Option.some.injEq, Prod.mk.injEq] at h
    obtain ⟨h1, h2⟩ := h
    subst h1
    subst h2
    exact ⟨rfl, rfl⟩
  | cons p ps ih =>
    intro s m rest h
    cases s with
    | nil => rw [matchCI_nil_input] at h; cases h
    | cons c cs =>
      rw [matchCI_cons] at h
      split at h
      · cases hmc : matchCI ps cs with
        | none => rw [hmc] at h; cases h
        | some mr =>
          obtain ⟨m1, r1⟩ := mr
          rw [hmc] at h
          simp only [Option.map_some', Option.map_some, Option.some.injEq, Prod.mk.injEq] at h
          obtain ⟨hm, hr⟩ := h
          subst hm
          subst hr
          obtain ⟨hs, hl⟩ := ih hmc
          constructor
          · simp [hs]
          · simp [hl]
      · cases h

lemma tryOp_eq {op s m rest : List Char} (h : tryOp op s = some (m, rest)) :
    s = m ++ rest ∧ m.length = op.length := by
  unfold tryOp at h
  split at h
  · next m1 r1 hmc =>
    split at h
    · simp only [Option.some.injEq, Prod.mk.injEq] at h
      obtain ⟨hm, hr⟩ := h
      subst hm
      subst hr
      exact matchCI_eq hmc
    · cases h
  · cases h

lemma tryOps_eq {pw : Bool} {s m rest : List Char} (h : tryOps pw s = some (m, rest)) :
    s = m ++ rest ∧ m ≠ [] := by
  have hlen : ∀ op : List Char, 0 < op.length → tryOp op s = some (m, rest) →
      s = m ++ rest ∧ m ≠ [] := by
    intro op hop h1
    obtain ⟨hs, hl⟩ := tryOp_eq h1
    refine ⟨hs, fun hnil => ?_⟩
    rw [hnil] at hl
    simp at hl
    omega
  unfold tryOps at h
  split at h
  · cases h
  · split at h
    · next r h1 =>
      obtain ⟨m1, r1⟩ := r
      simp only [Option.some.injEq, Prod.mk.injEq] at h
      obtain ⟨hm, hr⟩ := h
      subst hm
      subst hr
      exact hlen _ (by decide) h1
    · split at h
      · next r h2 =>
        obtain ⟨m1, r1⟩ := r
        simp only [Option.some.injEq, Prod.mk.injEq] at h
        obtain ⟨hm, hr⟩ := h
        subst hm
        subst hr
        exact hlen _ (by decide) h2
      · split at h
        · next r h3 =>
          obtain ⟨m1, r1⟩ := r
          simp only [Option.some.injEq, Prod.mk.injEq] at h
          obtain ⟨hm, hr⟩ := h
          subst hm
          subst hr
          exact hlen _ (by decide) h3
        · exact hlen _ (by decide) h

lemma findOp_nil (pw : Bool) : findOp pw [] = none := by
  cases pw <;> rfl

lemma findOp_cons (pw : Bool) (c : Char) (cs : List Char) :
    findOp pw (c :: cs) =
      match tryOps pw (c :: cs) with
      | some (m, rest) => some ([], m, rest)
      | none => (findOp (isWordChar c) cs).map fun pmr =>
          (c :: pmr.1, pmr.2.1, pmr.2.2) := rfl

lemma findOp_eq : ∀ {s : List Char} {pw : Bool} {pre m rest : List Char},
    findOp pw s = some (pre, m, rest) → s = pre ++ m ++ rest ∧ m ≠ [] := by
  intro s
  induction s with
  | nil =>
    intro pw pre m rest h
    rw [findOp_nil] at h
    cases h
  | cons c cs ih =>
    intro pw pre m rest h
    rw [findOp_cons] at h
    split at h
    · next m1 r1 ht =>
      simp only [Option.some.injEq, Prod.mk.injEq] at h
      obtain ⟨hp, hmr⟩ := h
      obtain ⟨hm, hr⟩ := hmr
      subst hp
      subst hm
      subst hr
      obtain ⟨hs, hne⟩ := tryOps_eq ht
      exact ⟨by simpa using hs, hne⟩
    · cases hf : findOp (isWordChar c) cs with
      | none => rw [hf] at h; cases h
      | some pmr =>
        obtain ⟨p1, m1, r1⟩ := pmr
        rw [hf] at h
        simp only [Option.map_some', Option.map_some, Option.some.injEq, Prod.mk.injEq] at h
        obtain ⟨hp, hmr⟩ := h
        obtain ⟨hm, hr⟩ := hmr
        subst hp
        subst hm
        subst hr
        obtain ⟨hs, hne⟩ := ih hf
        refine ⟨?_, hne⟩
        simp only [List.cons_append]
        rw [hs]

lemma splitBoolF_zero (pw : Bool) (s : List Char) : splitBoolF 0 pw s = [s] := rfl

lemma splitBoolF_succ (f : Nat) (pw : Bool) (s : List Char) :
    splitBoolF (f + 1) pw s =
      match findOp pw s with
      | none => [s]
      | some (pre, m, rest) => pre :: m :: splitBoolF f true rest := rfl

lemma splitBoolF_succ_none {f : Nat} {pw : Bool} {s : List Char}
    (hf : findOp pw s = none) : splitBoolF (f + 1) pw s = [s] := by
  rw [splitBoolF_succ, hf]

lemma splitBoolF_succ_some {f : Nat} {pw : Bool} {s pre m rest : List Char}
    (hf : findOp pw s = some (pre, m, rest)) :
    splitBoolF (f + 1) pw s = pre :: m :: splitBoolF f true rest := by
  rw [splitBoolF_succ, hf]

lemma concatL_splitBoolF : ∀ (fuel : Nat) (pw : Bool) (s : List Char),
    concatL (splitBoolF fuel pw s) = s := by
  intro fuel
  induction fuel with
  | zero => intro pw s; simp [splitBoolF_zero, concatL]
  | succ f ih =>
    intro pw s
    cases hf : findOp pw s with
    | none => rw [splitBoolF_succ_none hf]; simp [concatL]
    | some pmr =>
      obtain ⟨pre, m, rest⟩ := pmr
      obtain ⟨hs, _⟩ := findOp_eq hf
      rw [splitBoolF_succ_some hf]
      simp only [concatL, ih]
      rw [hs]
      simp [List.append_assoc]

lemma concatL_splitBool (s : List Char) : concatL (splitBool s) = s :=
  concatL_splitBoolF _ _ _

lemma count_splitBool (c : Char) (s : List Char) :
    ((splitBool s).map (List.count c)).sum = List.count c s := by
  rw [← count_concatL, concatL_splitBool]

/-! ## Counts and escapedness through each compiler branch -/
lemma boolPieces_sum {c : Char} (hc : isSpecialNQ c = true) (parts : List (List Char)) :
    ((parts.filterMap boolPieceFn).map (List.count c)).sum
      = (parts.map (List.count c)).sum := by
  induction parts with
  | nil => rfl
  | cons part ps ih =>
    rw [List.filterMap_cons]
    cases hbp : boolPieceFn part with
    | none =>
      have hz : List.count c part = 0 := by
        unfold boolPieceFn at hbp
        split at hbp
        · cases hbp
        · split at hbp
          · next hnil =>
            have hstrip : stripChars part = [] :=
              escapeFts5Chars_eq_nil (by simpa using hnil)
            exact count_strip_nil (special_not_ws hc) hstrip
          · cases hbp
      simp [List.sum_cons, ih, hz]
    | some piece =>
      have hpc : List.count c piece = List.count c part := by
        unfold boolPieceFn at hbp
        split at hbp
        · next hop =>
          simp only [Option.some.injEq] at hbp
          subst hbp
          rw [count_op_zero hc hop, count_upper_op hc hop]
        · split at hbp
          · cases hbp
          · simp only [Option.some.injEq] at hbp
            subst hbp
            rw [count_escape hc, count_strip (special_not_ws hc)]
      simp [List.sum_cons, ih, hpc]

lemma count_processBooleanQuery {c : Char} (hc : isSpecialNQ c = true) (q : List Char) :
    List.count c (processBooleanQuery q) = List.count c q := by
  unfold processBooleanQuery boolPieces
  rw [count_joinWith (special_ne_space hc), boolPieces_sum hc, count_splitBool]

lemma pySplitOn_ne_nil (sep : Char) : ∀ l, pySplitOn sep l ≠ [] := by
  intro l
  cases l with
  | nil => simp [pySplitOn]
  | cons c cs =>
    unfold pySplitOn
    by_cases h : (c == sep) = true
    · rw [if_pos h]
      simp
    · rw [if_neg h]
      cases hh : pySplitOn sep cs <;> simp

lemma joinWith_cons2 (sep : Char) (p q : List Char) (ps : List (List Char)) :
    joinWith sep (p :: q :: ps) = p ++ sep :: joinWith sep (q :: ps) := rfl

lemma joinWith_pySplitOn (sep : Char) : ∀ l, joinWith sep (pySplitOn sep l) = l := by
  intro l
  induction l with
  | nil => rfl
  | cons c cs ih =>
    unfold pySplitOn
    by_cases h : (c == sep) = true
    · rw [if_pos h]
      obtain ⟨r, rs, hr⟩ : ∃ r rs, pySplitOn sep cs = r :: rs := by
        cases hh : pySplitOn sep cs with
        | nil => exact absurd hh (pySplitOn_ne_nil sep cs)
        | cons r rs => exact ⟨r, rs, rfl⟩
      have hcs : c = sep := by simpa using h
      rw [hr, joinWith_cons2, ← hr, ih, hcs]
      rfl
    · rw [if_neg h]
      cases hh : pySplitOn sep cs with
      | nil => exact absurd hh (pySplitOn_ne_nil sep cs)
      | cons p ps =>
        rw [hh] at ih
        cases ps with
        | nil =>
          have hp : p = cs := ih
          simp [joinWith, hp]
        | cons q qs =>
          rw [joinWith_cons2] at ih
          rw [joinWith_cons2]
          simp [← ih]

lemma count_pySplitOn {c sep : Char} (h : c ≠ sep) (l : List Char) :
    ((pySplitOn sep l).map (List.count c)).sum = List.count c l := by
  conv_rhs => rw [← joinWith_pySplitOn sep l]
  rw [count_joinWith h]

lemma phrasePieces_true_step (p : List Char) (ps : List (List Char)) :
    phrasePieces true (p :: ps)
      = ('"' :: (escapeFts5Chars p ++ ['"'])) :: phrasePieces false ps := rfl

lemma phrasePieces_false_step (p : List Char) (ps : List (List Char)) :
    phrasePieces false (p :: ps)
      = (if stripChars p == [] then [] else [escapeFts5Chars p]) ++ phrasePieces true ps :=
  rfl

lemma phrasePieces_sum {c : Char} (hc : isSpecialNQ c = true) :
    ∀ (parts : List (List Char)) (inQ : Bool),
      ((phrasePieces inQ parts).map (List.count c)).sum
        = (parts.map (List.count c)).sum := by
  intro parts
  induction parts with
  | nil => intro inQ; cases inQ <;> rfl
  | cons p ps ih =>
    intro inQ
    have hq : ('"' == c) = false := by
      simp only [beq_eq_false_iff_ne, ne_eq]
      exact fun he => special_ne_quote hc he.symm
    have hquoted : List.count c ('"' :: (escapeFts5Chars p ++ ['"'])) = List.count c p := by
      rw [List.count_cons, List.count_append, count_escape hc, List.count_cons]
      simp [hq]
    cases inQ with
    | true =>
      rw [phrasePieces_true_step]
      simp only [List.map_cons, List.sum_cons]
      rw [ih false, hquoted]
    | false =>
      rw [phrasePieces_false_step]
      by_cases hs : (stripChars p == []) = true
      · have hz : List.count c p = 0 :=
          count_strip_nil (special_not_ws hc) (by simpa using hs)
        rw [if_pos hs, List.nil_append, ih true]
        simp [List.sum_cons, hz]
      · rw [if_neg hs]
        simp only [List.cons_append, List.nil_append, List.map_cons, List.sum_cons, ih true]
        rw [count_escape hc]

lemma escForm_joinWith : ∀ parts : List (List Char),
    (∀ p ∈ parts, EscForm p) → EscForm (joinWith ' ' parts) := by
  intro parts
  induction parts with
  | nil => intro _; exact EscForm.nil
  | cons p ps ih =>
    intro h
    cases ps with
    | nil => exact h p (List.mem_cons_self p [])
    | cons q qs =>
      rw [joinWith_cons2]
      refine escForm_append (h p (List.mem_cons_self p _)) ?_
      refine EscForm.plain ' ' _ (by decide) ?_
      exact ih fun x hx => h x (List.mem_cons_of_mem p hx)

lemma escForm_op {w : List Char} (hw : w ∈ booleanOperators) : EscForm w := by
  refine escForm_of_no_specials ?_
  intro x hx
  simp only [booleanOperators, List.mem_cons, List.not_mem_nil, or_false] at hw
  rcases hw with rfl | rfl | rfl | rfl <;> simp only [List.mem_cons, List.not_mem_nil,
    or_false] at hx <;> rcases hx with rfl | rfl | rfl | rfl <;> decide

lemma escForm_boolPiece {part piece : List Char} (h : boolPieceFn part = some piece) :
    EscForm piece := by
  unfold boolPieceFn at h
  split at h
  · next hop =>
    simp only [Option.some.injEq] at h
    subst h
    exact escForm_op hop
  · split at h
    · cases h
    · simp only [Option.some.injEq] at h
      subst h
      exact escForm_escape _

lemma escForm_phrasePieces : ∀ (parts : List (List Char)) (inQ : Bool) (p : List Char),
    p ∈ phrasePieces inQ parts → EscForm p := by
  intro parts
  induction parts with
  | nil => intro inQ p hp; cases inQ <;> simp [phrasePieces] at hp
  | cons x xs ih =>
    intro inQ p hp
    cases inQ with
    | true =>
      rw [phrasePieces_true_step] at hp
      rcases List.mem_cons.mp hp with rfl | hp
      · refine EscForm.plain '"' _ (by decide) ?_
        refine escForm_append (escForm_escape x) ?_
        exact EscForm.plain '"' _ (by decide) EscForm.nil
      · exact ih false p hp
    | false =>
      rw [phrasePieces_false_step] at hp
      rcases List.mem_append.mp hp with hp | hp
      · by_cases hs : (stripChars x == []) = true
        · rw [if_pos hs] at hp
          cases hp
        · rw [if_neg hs] at hp
          rcases List.mem_cons.mp hp with rfl | hp
          · exact escForm_escape x
          · cases hp
      · exact ih true p hp

lemma escForm_processSecureQuery (q : List Char) : EscForm (processSecureQuery q) := by
  unfold processSecureQuery
  by_cases hph : (q.contains '"') = true
  · rw [if_pos hph]
    exact escForm_joinWith _ fun p hp => escForm_phrasePieces _ false p hp
  · rw [if_neg hph]
    by_cases hop : hasOperatorsB q = true
    · rw [if_pos hop]
      refine escForm_joinWith _ ?_
      intro p hp
      unfold boolPieces at hp
      obtain ⟨part, _, hbp⟩ := List.mem_filterMap.mp hp
      exact escForm_boolPiece hbp
    · rw [if_neg hop]
      by_cases hw : (pyWords (escapeFts5Chars q)).length > 1
      · rw [if_pos hw]
        refine EscForm.plain '"' _ (by decide) ?_
        refine escForm_append (escForm_escape q) ?_
        exact EscForm.plain '"' _ (by decide) EscForm.nil
      · rw [if_neg hw]
        exact escForm_escape q

lemma count_processSecureQuery {c : Char} (hc : isSpecialNQ c = true) (q : List Char) :
    List.count c (processSecureQuery q) = List.count c q := by
  have hq : ('"' == c) = false := by
    simp only [beq_eq_false_iff_ne, ne_eq]
    exact fun he => special_ne_quote hc he.symm
  unfold processSecureQuery
  by_cases hph : (q.contains '"') = true
  · rw [if_pos hph]
    unfold escapePhraseQuery
    rw [count_joinWith (special_ne_space hc), phrasePieces_sum hc,
      count_pySplitOn (special_ne_quote hc)]
  · rw [if_neg hph]
    by_cases hop : hasOperatorsB q = true
    · rw [if_pos hop]
      exact count_processBooleanQuery hc q
    · rw [if_neg hop]
      by_cases hw : (pyWords (escapeFts5Chars q)).length > 1
      · rw [if_pos hw, List.count_cons, List.count_append, count_escape hc,
          List.count_cons]
        simp [hq]
      · rw [if_neg hw]
        exact count_escape hc q

/-- C1: for every validated query, the compiled query escapes grammar
metacharacters — every occurrence of a reserved character other than the
double quote in the compiled output is immediately prefixed by the
escape marker `\`, and no occurrence from the input is lost (per-character
occurrence counts are preserved), so the output contains no unescaped
reserved metacharacter besides the double quotes the compiler itself
emits. -/
theorem compiled_query_escapes_metacharacters (q0 q : List Char)
    (hv : validateQuery q0 = .ok q) :
    escapedPositions (processSecureQuery q) ∧
      ∀ c, isSpecialNQ c = true →
        List.count c (processSecureQuery q) = List.count c q :=
  ⟨escForm_positions (escForm_processSecureQuery q),
   fun _ hc => count_processSecureQuery hc q⟩

/-- Witness for C1 at the concrete validated query `a:b (c)`. -/
theorem compiled_query_escapes_metacharacters_witness :
    escapedPositions (processSecureQuery (r"a:b (c)".toList)) ∧
      ∀ c, isSpecialNQ c = true →
        List.count c (processSecureQuery (r"a:b (c)".toList))
          = List.count c (r"a:b (c)".toList) :=
  compiled_query_escapes_metacharacters (r"a:b (c)".toList) (r"a:b (c)".toList) rfl

/-! ## C4: the boolean-operator branch -/

/-- C4 counterexample: the query `x (and) y` contains `and` as a
`\b`-delimited whole word and no double quote, yet the compiler does not
take the boolean branch (its detection requires the operator to be
surrounded by single spaces), so no upper-cased unescaped `AND` appears
in the output — the whole query is escaped and quoted instead. -/
theorem whole_word_operator_not_uppercased :
    containsWholeWordOp (r"x (and) y".toList) = true ∧
      ((r"x (and) y".toList).contains '"') = false ∧
      hasOperatorsB (r"x (and) y".toList) = false ∧
      processSecureQuery (r"x (and) y".toList) = c4expected ∧
      occursIn (['A', 'N', 'D']) (processSecureQuery (r"x (and) y".toList)) = false := by
  refine ⟨?_, ?_, ?_, ?_, ?_⟩ <;> decide

/-- C4 (amended): for every query without a double quote in which some
operator occurs surrounded by single spaces in the upper-cased text (the
code's actual detection), compilation is the boolean branch: the query
is split at whole-word operator boundaries and the surviving pieces are
joined with single spaces, each piece being either an upper-cased
operator passed through unescaped or a non-empty stripped-and-escaped
fragment. -/
theorem boolean_branch_structure (q : List Char)
    (hph : (q.contains '"') = false) (hop : hasOperatorsB q = true) :
    processSecureQuery q = joinWith ' ' (boolPieces q) ∧
      ∀ p ∈ boolPieces q, p ∈ booleanOperators ∨ (EscForm p ∧ p ≠ []) := by
  constructor
  · unfold processSecureQuery
    rw [if_neg (show ¬q.contains '"' = true by rw [hph]; simp), if_pos hop]
    rfl
  · intro p hp
    obtain ⟨part, _, hbp⟩ := List.mem_filterMap.mp hp
    unfold boolPieceFn at hbp
    split at hbp
    · next hopmem =>
      left
      simp only [Option.some.injEq] at hbp
      subst hbp
      exact hopmem
    · split at hbp
      · cases hbp
      · next hne =>
        right
        simp only [Option.some.injEq] at hbp
        subst hbp
        exact ⟨escForm_escape _, by simpa using hne⟩

/-- Witness for C4 (amended) at the concrete query `python AND java`. -/
theorem boolean_branch_structure_witness :
    processSecureQuery (r"python AND java".toList)
        = joinWith ' ' (boolPieces (r"python AND java".toList)) ∧
      ∀ p ∈ boolPieces (r"python AND java".toList),
        p ∈ booleanOperators ∨ (EscForm p ∧ p ≠ []) :=
  boolean_branch_structure (r"python AND java".toList) (by decide) (by decide)

/-! ## C3, C5, C6, C10: the search wrapper -/

lemma respOk_setCached {r : Response} (h : respOk r) : respOk (setCached r) := by
  obtain ⟨h1, h2⟩ := h
  exact ⟨h1, h2⟩

/-- C3 (amended): provided every cached entry satisfies the pagination
invariant (which the engine guarantees by caching only non-error
responses of its own success path), every response `search` returns has
`count = len(results)`, and every non-error response carries
`has_more = ((offset + count) < total)` at its own offset; the failure
path's response has `count = len(results) = 0` but no `has_more` key. -/
theorem search_response_count_has_more (env : SearchEnv)
    (hwf : ∀ q l o r, env.cacheGet q l o = some r → respOk r)
    (q : List Char) (l o : Int) (u : Option (List Char)) (r : Response)
    (hr : (secureSearch env q l o u).1 = .ok r) : respOk r := by
  unfold secureSearch at hr
  cases hv : validateQuery q with
  | error e => cases (by simpa only [hv] using hr : Except.error e = Except.ok r)
  | ok q' =>
    simp only [hv] at hr
    cases hc : env.cacheGet q' (clampLimit l) (clampOffset o) with
    | some cached =>
      simp only [hc, Except.ok.injEq] at hr
      subst hr
      exact respOk_setCached (hwf _ _ _ _ hc)
    | none =>
      simp only [hc] at hr
      cases hd : env.dbSearch (processSecureQuery q') (clampLimit l) (clampOffset o) with
      | ok rows =>
        simp only [hd, Except.ok.injEq] at hr
        subst hr
        exact ⟨rfl, fun _ => ⟨clampOffset o, rfl, rfl⟩⟩
      | error e =>
        simp only [hd, Except.ok.injEq] at hr
        subst hr
        exact ⟨rfl, fun he => by cases he⟩

/-- Witness for C3 (amended): the concrete healthy run returns `respW`,
which satisfies the invariant. -/
theorem search_response_count_has_more_witness : respOk respW := by
  have hr : (secureSearch env0 (r"hello".toList) 250 (-3) none).1 = .ok respW := rfl
  exact search_response_count_has_more env0 (fun _ _ _ _ h => by cases h)
    (r"hello".toList) 250 (-3) none respW hr

/-- C3 counterexample: when the store search raises, the returned response
has `count = len(results) = 0` and `total = 0`, but carries no
`has_more` key at all (modelled as `none`), whereas the claim requires
`has_more = ((offset + count) < total)` on every response. -/
theorem search_error_response_lacks_has_more :
    ((secureSearch envErr (r"hello".toList) 20 0 none).1.toOption.map
        fun r => (r.count, r.results.length, r.total, r.hasMore, r.offset))
      = some (0, 0, 0, none, none) := rfl

/-- C5 (code bug): `_validate_query` runs before the `try` block of
`search`, so the `ValueError` for an empty query propagates to the
caller instead of being returned as a structured error result (the
repository's own test asserts the structured result). -/
theorem validation_error_escapes_search :
    secureSearch env0 [] 20 0 none = (.error QueryError.emptyQuery, []) := rfl

/-- C6 counterexample: a call that fails validation (whitespace query,
empty after trimming) raises and writes zero audit records, so not
every call writes exactly one audit record. -/
theorem validation_failure_writes_no_audit :
    secureSearch env0 [' ', ' ', ' '] 20 0 none = (.error QueryError.tooShort, []) := rfl

/-- C6 (amended): every call whose query passes validation writes exactly
one audit record — on cache hit, cache miss, success and store failure
alike — and that record holds the 16-hex-digit prefix of the query's
digest, the caller id, the validated query's length, the cache-hit
flag, the duration, and the optional error; never the query text
itself.  A call that fails validation raises and writes none. -/
theorem search_writes_exactly_one_audit (env : SearchEnv) (query : List Char)
    (l o : Int) (u : Option (List Char)) (q : List Char)
    (hv : validateQuery query = .ok q) :
    ∃ fromCache err,
      (secureSearch env query l o u).2
        = [⟨(env.sha256hex q).take 16, u, q.length, fromCache, env.durationMs, err⟩] := by
  unfold secureSearch
  rw [hv]
  cases hc : env.cacheGet q (clampLimit l) (clampOffset o) with
  | some cached => simp only [hc]; exact ⟨true, none, rfl⟩
  | none =>
    simp only [hc]
    cases hd : env.dbSearch (processSecureQuery q) (clampLimit l) (clampOffset o) with
    | ok rows => simp only [hd]; exact ⟨false, none, rfl⟩
    | error e => simp only [hd]; exact ⟨false, some e, rfl⟩

/-- Witness for C6 (amended) at a concrete validated call. -/
theorem search_writes_exactly_one_audit_witness :
    ∃ fromCache err,
      (secureSearch env0 (r"hello".toList) 250 (-3) none).2
        = [⟨(env0.sha256hex (r"hello".toList)).take 16, none, (r"hello".toList).length,
            fromCache, env0.durationMs, err⟩] :=
  search_writes_exactly_one_audit env0 (r"hello".toList) 250 (-3) none
    (r"hello".toList) rfl

/-- C10: the limit used for the store query and echoed in a successful
uncached response is `min(max(1, limit), 100)` and the offset is
`max(0, offset)`; a caller passing out-of-range values silently gets
the clamped call — the whole search behaves identically to one made
with the clamped values. -/
theorem search_clamps_limit_offset (env : SearchEnv) (q : List Char) (l o : Int)
    (u : Option (List Char)) (r : Response)
    (hr : (secureSearch env q l o u).1 = .ok r) (herr : r.error = none)
    (hcache : r.cached = false) :
    secureSearch env q l o u = secureSearch env q (clampLimit l) (clampOffset o) u ∧
      r.limit = some (clampLimit l) ∧ r.offset = some (clampOffset o) := by
  have hl : clampLimit (clampLimit l) = clampLimit l := by
    unfold clampLimit maxResultsPerPage
    omega
  have ho : clampOffset (clampOffset o) = clampOffset o := by
    unfold clampOffset
    omega
  constructor
  · unfold secureSearch
    rw [hl, ho]
  · unfold secureSearch at hr
    cases hv : validateQuery q with
    | error e => cases (by simpa only [hv] using hr : Except.error e = Except.ok r)
    | ok q' =>
      simp only [hv] at hr
      cases hc : env.cacheGet q' (clampLimit l) (clampOffset o) with
      | some cached =>
        simp only [hc, Except.ok.injEq] at hr
        subst hr
        cases hcache
      | none =>
        simp only [hc] at hr
        cases hd : env.dbSearch (processSecureQuery q') (clampLimit l) (clampOffset o) with
        | ok rows =>
          simp only [hd, Except.ok.injEq] at hr
          subst hr
          exact ⟨rfl, rfl⟩
        | error e =>
          simp only [hd, Except.ok.injEq] at hr
          subst hr
          cases herr

/-- Witness for C10 at a concrete out-of-range call (`limit = 250`,
`offset = -3`). -/
theorem search_clamps_limit_offset_witness :
    secureSearch env0 (r"hello".toList) 250 (-3) none
        = secureSearch env0 (r"hello".toList) (clampLimit 250) (clampOffset (-3)) none ∧
      respW.limit = some (clampLimit 250) ∧ respW.offset = some (clampOffset (-3)) := by
  have hr : (secureSearch env0 (r"hello".toList) 250 (-3) none).1 = .ok respW := rfl
  exact search_clamps_limit_offset env0 (r"hello".toList) 250 (-3) none respW hr rfl rfl

/-! ## C2, C7: ingestion -/

lemma insertConversation_skip {st : DBState} {cid title : List Char} {msgs : List Msg}
    {ck : Option (List Char)} {now : Nat} {row : MetaRow}
    (hl : lookupMeta st cid = some row) (he : row.checksum = resolveChecksum ck msgs) :
    insertConversation st cid title msgs ck now = (st, 0) := by
  simp [insertConversation, hl, he]

lemma find?_filter_cid (l : List MetaRow) (cid : List Char) :
    (l.filter fun r => !(r.conversationId == cid)).find?
      (fun r => r.conversationId == cid) = none := by
  rw [List.find?_eq_none]
  intro x hx
  have hxf := (List.mem_filter.mp hx).2
  simpa using hxf

lemma insertConversation_effective (st : DBState) (cid title : List Char)
    (msgs : List Msg) (ck : Option (List Char)) (now : Nat)
    (h : (match lookupMeta st cid with
      | some row => row.checksum == resolveChecksum ck msgs
      | none => false) = false) :
    insertConversation st cid title msgs ck now
      = (⟨st.conversations ++ msgs.map (fun m => FtsRow.mk cid m.timestamp m.sender m.content),
          st.metadata.filter (fun r => !(r.conversationId == cid))
            ++ [⟨cid, title, msgs.length, createdOf msgs now, updatedOf msgs now,
                 resolveChecksum ck msgs⟩]⟩,
        msgs.length) := by
  simp only [insertConversation]
  rw [h]
  simp

lemma lookupMeta_effective (st : DBState) (cid title : List Char)
    (msgs : List Msg) (ck : Option (List Char)) (now : Nat)
    (h : (match lookupMeta st cid with
      | some row => row.checksum == resolveChecksum ck msgs
      | none => false) = false) :
    lookupMeta (insertConversation st cid title msgs ck now).1 cid
      = some ⟨cid, title, msgs.length, createdOf msgs now, updatedOf msgs now,
          resolveChecksum ck msgs⟩ := by
  rw [insertConversation_effective st cid title msgs ck now h]
  unfold lookupMeta
  simp only [List.find?_append, find?_filter_cid]
  simp [List.find?_singleton]

/-- C2: when the stored metadata row for the id already holds the supplied
(or, when omitted or empty, computed) checksum, ingestion is a no-op
returning 0; in particular re-ingesting the identical id and messages a
second time inserts 0 rows and leaves both tables unchanged. -/
theorem insert_conversation_idempotent :
    (∀ (st : DBState) (cid title : List Char) (msgs : List Msg)
       (ck : Option (List Char)) (now : Nat) (row : MetaRow),
       lookupMeta st cid = some row → row.checksum = resolveChecksum ck msgs →
       insertConversation st cid title msgs ck now = (st, 0)) ∧
    ∀ (st : DBState) (cid title : List Char) (msgs : List Msg)
      (ck : Option (List Char)) (now now' : Nat),
      insertConversation (insertConversation st cid title msgs ck now).1
          cid title msgs ck now'
        = ((insertConversation st cid title msgs ck now).1, 0) := by
  refine ⟨fun st cid title msgs ck now row hl he =>
    insertConversation_skip hl he, ?_⟩
  intro st cid title msgs ck now now'
  by_cases hskip : (match lookupMeta st cid with
      | some row => row.checksum == resolveChecksum ck msgs
      | none => false) = true
  · obtain ⟨row, hl, he⟩ : ∃ row, lookupMeta st cid = some row ∧
        row.checksum = resolveChecksum ck msgs := by
      cases hl : lookupMeta st cid with
      | none => rw [hl] at hskip; cases hskip
      | some row =>
        rw [hl] at hskip
        exact ⟨row, rfl, by simpa using hskip⟩
    rw [insertConversation_skip hl he]
    exact insertConversation_skip hl he
  · rw [Bool.not_eq_true] at hskip
    apply insertConversation_skip (lookupMeta_effective st cid title msgs ck now hskip)
    rfl

/-- Witness for C2 at a concrete repeated call. -/
theorem insert_conversation_idempotent_witness :
    insertConversation dbSt1 cidC (r"t".toList) [msgA] none 99 = (dbSt1, 0) :=
  insert_conversation_idempotent.1 dbSt1 cidC (r"t".toList) [msgA] none 99 metaW
    rfl rfl
lemma find?_filter_of_imp {α : Type} {p q : α → Bool} (h : ∀ x, p x = true → q x = true) :
    ∀ l : List α, (l.filter q).find? p = l.find? p := by
  intro l
  induction l with
  | nil => rfl
  | cons a as ih =>
    by_cases hq : q a = true
    · rw [List.filter_cons_of_pos hq]
      by_cases hp : p a = true
      · rw [List.find?_cons_of_pos _ hp, List.find?_cons_of_pos _ hp]
      · rw [List.find?_cons_of_neg _ (by simp [hp]), List.find?_cons_of_neg _ (by simp [hp]),
          ih]
    · have hp : p a = false := by
        cases hpa : p a
        · rfl
        · exact absurd (h a hpa) hq
      rw [List.filter_cons_of_neg (by simp [hq]), ih,
        List.find?_cons_of_neg _ (by simp [hp])]

lemma filter_map_rows_self (cid : List Char) (msgs : List Msg) :
    ((msgs.map fun m => FtsRow.mk cid m.timestamp m.sender m.content).filter
        fun r => r.conversationId == cid)
      = msgs.map fun m => FtsRow.mk cid m.timestamp m.sender m.content := by
  induction msgs with
  | nil => rfl
  | cons m ms ih => simp [List.filter_cons, ih]

lemma filter_map_rows_ne {cid cid' : List Char} (h : cid' ≠ cid) (msgs : List Msg) :
    ((msgs.map fun m => FtsRow.mk cid m.timestamp m.sender m.content).filter
        fun r => r.conversationId == cid') = [] := by
  have hb : (cid == cid') = false := by
    simp only [beq_eq_false_iff_ne, ne_eq]
    exact fun he => h he.symm
  induction msgs with
  | nil => rfl
  | cons m ms ih => simp [List.filter_cons, ih, hb]

lemma countsInv_insert {st : DBState} (hInv : countsInv st) {c : InsertCall}
    (hs : safeCall st c = true) : countsInv (applyInsert st c) := by
  unfold safeCall at hs
  cases hl : lookupMeta st c.cid with
  | some row =>
    simp only [hl] at hs
    have heq : applyInsert st c = st := by
      unfold applyInsert
      rw [insertConversation_skip hl (by simpa using hs)]
    rw [heq]
    exact hInv
  | none =>
    have h : (match lookupMeta st c.cid with
        | some row => row.checksum == resolveChecksum c.checksum c.messages
        | none => false) = false := by rw [hl]
    unfold applyInsert
    rw [insertConversation_effective st c.cid c.title c.messages c.checksum c.now h]
    intro cid'
    by_cases hcid : cid' = c.cid
    · subst hcid
      have h0 : (st.conversations.filter fun r => r.conversationId == c.cid).length = 0 := by
        have hm := hInv c.cid
        unfold metaCountOf at hm
        rw [hl] at hm
        exact hm.symm
      unfold metaCountOf lookupMeta ftsCountOf
      rw [List.find?_append, find?_filter_cid, List.find?_singleton,
        if_pos (by simp), Option.none_or, List.filter_append, List.length_append, h0,
        filter_map_rows_self, List.length_map]
      simp
    · have hmeta := hInv cid'
      unfold metaCountOf lookupMeta ftsCountOf at hmeta ⊢
      have himp : ∀ x : MetaRow, (x.conversationId == cid') = true →
          (!(x.conversationId == c.cid)) = true := by
        intro x hx
        simp only [beq_iff_eq] at hx
        simp [hx, hcid]
      rw [List.find?_append, find?_filter_of_imp himp, List.find?_singleton,
        if_neg (by simpa using fun he : c.cid = cid' => hcid he.symm),
        Option.or_none, List.filter_append, List.length_append,
        filter_map_rows_ne hcid, List.length_nil, Nat.add_zero]
      exact hmeta

lemma countsInv_run : ∀ (calls : List InsertCall) (st : DBState), countsInv st →
    allSafe st calls = true → countsInv (runInserts st calls) := by
  intro calls
  induction calls with
  | nil => intro st h _; exact h
  | cons c cs ih =>
    intro st h hall
    have hall' : safeCall st c = true ∧ allSafe (applyInsert st c) cs = true := by
      simpa [allSafe, Bool.and_eq_true] using hall
    exact ih (applyInsert st c) (countsInv_insert h hall'.1) hall'.2

/-- C7 (amended): after any sequence of `insert_conversation` calls from an
empty store in which no call re-ingests an existing conversation id with
a different checksum (each call hits a fresh id or is a checksum-matching
skip), every stored `message_count` equals the number of full-text rows
for its id.  Re-ingesting an id with a changed checksum breaks the
equality because the old index rows are not deleted. -/
theorem message_count_matches_without_reingest (calls : List InsertCall)
    (hsafe : allSafe emptyDB calls = true) :
    countsInv (runInserts emptyDB calls) :=
  countsInv_run calls emptyDB (fun _ => rfl) hsafe

/-- Witness for C7 (amended): ingesting `c` once and then repeating the
identical call (a checksum-matching skip) keeps the counts equal. -/
theorem message_count_matches_without_reingest_witness :
    countsInv (runInserts emptyDB [callW, callW]) :=
  message_count_matches_without_reingest [callW, callW] (by decide)

/-- C7 counterexample: ingesting `c` with one message and then re-ingesting
`c` with two messages (a different checksum) leaves three full-text rows
but a `message_count` of 2 — the invariant in the claim fails. -/
theorem reingest_breaks_message_count :
    metaCountOf dbSt2 cidC = 2 ∧ ftsCountOf dbSt2 cidC = 3 ∧ ¬ countsInv dbSt2 := by
  refine ⟨by decide, by decide, fun hinv => ?_⟩
  have hcc := hinv cidC
  rw [show metaCountOf dbSt2 cidC = 2 by decide,
    show ftsCountOf dbSt2 cidC = 3 by decide] at hcc
  omega

/-! ## C8, C9: the streaming parser -/

/-- C8: per-element failures are isolated.  The whole read fails exactly
when the file level fails (`none` input: unopenable file or invalid
top-level array); for a readable file the read always succeeds, and a
non-dict element or an element whose decode raises is skipped while
iteration continues with the remaining elements. -/
theorem parse_isolated_element_failures :
    parseConversations none = .error () ∧
      (∀ elems, parseConversations (some elems) = .ok (elems.filterMap elementYield)) ∧
      ∀ pre e post, (isObjJ e = false ∨ (conversationFromDict e).toOption = none) →
        parseConversations (some (pre ++ e :: post))
          = parseConversations (some (pre ++ post)) := by
  refine ⟨rfl, fun _ => rfl, ?_⟩
  intro pre e post h
  have hnone : elementYield e = none := by
    unfold elementYield
    rcases h with h | h
    · rw [if_neg (by simp [h])]
    · by_cases ho : isObjJ e = true
      · rw [if_pos ho]
        cases hcd : conversationFromDict e with
        | error ex => simp [hcd]
        | ok conv =>
          rw [hcd] at h
          simp [Except.toOption] at h
      · rw [if_neg ho]
  simp [parseConversations, List.filterMap_append, List.filterMap_cons, hnone]

/-- Witness for C8: a failing element (`create_time` holding a string) is
skipped between two good elements. -/
theorem parse_isolated_element_failures_witness :
    parseConversations (some ([eGood] ++ eBad :: [eGood]))
      = parseConversations (some ([eGood] ++ [eGood])) :=
  parse_isolated_element_failures.2.2 [eGood] eBad [eGood] (Or.inr rfl)

/-- C9 counterexample: an element whose single message flattens to the one
whitespace character is yielded even though every message's content is
whitespace-only — the parser only filters out conversations whose
message list is empty, not ones whose contents are blank. -/
theorem whitespace_only_conversation_yielded :
    parseConversations (some [e9]) = .ok [conv9] ∧
      conv9.messages.map (fun m => stripChars m.content) = [[]] ∧
      conv9.messages ≠ [] := by
  refine ⟨rfl, rfl, ?_⟩
  simp [conv9]

/-- C9 (amended): the parser never yields a conversation with an empty
message list (falsy content parts are dropped during flattening, but
messages whose flattened content is empty or whitespace-only are kept;
they are only filtered out later by the importer, before storage). -/
theorem yielded_conversations_have_messages (inp : Option (List JVal))
    (l : List Conversation) (h : parseConversations inp = .ok l) :
    ∀ conv ∈ l, conv.messages ≠ [] := by
  cases inp with
  | none => cases h
  | some elems =>
    simp only [parseConversations, Except.ok.injEq] at h
    subst h
    intro conv hconv
    obtain ⟨e, _, hye⟩ := List.mem_filterMap.mp hconv
    unfold elementYield at hye
    split at hye
    · cases hcd : conversationFromDict e with
      | error ex =>
        simp only [hcd] at hye
        cases hye
      | ok c =>
        simp only [hcd] at hye
        split at hye
        · cases hye
        · next hlen =>
          simp only [Option.some.injEq] at hye
          subst hye
          intro hnil
          rw [hnil] at hlen
          simp at hlen
    · cases hye

/-- Witness for C9 (amended): the conversation yielded for `e9` has a
non-empty message list. -/
theorem yielded_conversations_have_messages_witness : conv9.messages ≠ [] :=
  yielded_conversations_have_messages (some [e9]) [conv9] rfl conv9 (by simp)
